import Mathlib

/-!
Verification development for the sgn streaming dataflow runtime.

The definitions below are a shallow embedding of the core of the repository:
the Frame data model and its construction (base.py, Frame.__post_init__),
pad linking (base.py SinkPad.link, apps.py Pipeline.link), the name registry
(apps.py Pipeline.insert), the per frame scheduler built on a topological
sort of the pad dependency graph (apps.py Pipeline.__execute_graphs, which
uses graphlib.TopologicalSorter), the per sink pad EOS tables of sink
elements (base.py SinkElement), the shared memory roster (subprocess.py
SubProcess.to_shm) and the drain loop of the subprocess worker wrapper
(subprocess.py _SubProcessTransSink._sub_process_wrapper).

Python dictionaries are modelled as association lists over String keys,
object identity of Frame instances is modelled with a heap of frames and
numeric references into it, exceptions are modelled with Except carrying the
pipeline state observable at the moment the exception propagates, and the
unbounded while loop of Pipeline.run is modelled with explicit fuel: a
result of none means the loop has not returned within the given number of
frame cycles.
-/

namespace Sgn

/-- Association list lookup, modelling Python dict item access. -/
def lookupVal {α : Type} : List (String × α) → String → Option α
  | [], _ => none
  | q :: rest, k => if q.1 = k then some q.2 else lookupVal rest k

/-- Association list assignment, modelling Python dict item assignment:
the first binding of the key is replaced, a missing key is appended. -/
def setVal {α : Type} : List (String × α) → String → α → List (String × α)
  | [], k, v => [(k, v)]
  | q :: rest, k, v => if q.1 = k then (k, v) :: rest else q :: setVal rest k v

/-- Frame, from base.py: EOS flag, gap flag and a metadata mapping.  The
metadata values that matter to the core are strings (the __graph__ entry),
so the metadata dict is modelled as a String to String mapping. -/
structure Frame where
  EOS : Bool := false
  is_gap : Bool := false
  metadata : List (String × String) := []
  deriving DecidableEq, Repr

/-- Frame construction including Frame.__post_init__, which unconditionally
assigns the empty string to the metadata key __graph__. -/
def mkFrame (eos gap : Bool) (md : List (String × String)) : Frame :=
  { EOS := eos, is_gap := gap, metadata := setVal md "__graph__" "" }

/-- Pipeline.insert interning of the pad names of one element: each pad name
is asserted absent from the registry and then added, in order.  The error
value carries the registry contents at the moment the assertion fails. -/
def insertPads (reg : List String) : List String → Except (List String) (List String)
  | [] => .ok reg
  | p :: rest =>
      if p ∈ reg then .error reg else insertPads (reg ++ [p]) rest

/-- Pipeline.insert for a single element, from apps.py: assert the element
name is not in the registry, add it, then intern every pad name the same
way. -/
def insertElement (reg : List String) (ename : String) (pads : List String) :
    Except (List String) (List String) :=
  if ename ∈ reg then .error reg else insertPads (reg ++ [ename]) pads

/-- Pad dependency graph, as fed to graphlib.TopologicalSorter: each key is
mapped to the list of its predecessors. -/
abbrev Graph := List (String × List String)

/-- Predecessors of a node in the dependency graph. -/
def predsOf (g : Graph) (n : String) : List String := (lookupVal g n).getD []

/-- SinkPad.link from base.py: store the back pointer to the source pad
(replacing any previous one, without any check) and return the one entry
dependency map mapping the sink pad to the singleton of the source pad. -/
def sinkLink (other : List (String × String)) (snk src : String) :
    List (String × String) × Graph :=
  (setVal other snk src, [(snk, [src])])

/-- Python dict.update of the pipeline graph with a returned link map. -/
def dictUpdate (g : Graph) (entries : Graph) : Graph :=
  entries.foldl (fun acc q => setVal acc q.1 q.2) g

/-- One entry of Pipeline.link, from apps.py: resolve the pair, call
SinkPad.link and merge the returned map into the pipeline graph. -/
def linkStep (st : List (String × String) × Graph) (op : String × String) :
    List (String × String) × Graph :=
  let r := sinkLink st.1 op.1 op.2
  (r.1, dictUpdate st.2 r.2)

/-- Pipeline.link over a whole sequence of sink to source entries. -/
def pipelineLink (ops : List (String × String)) (st : List (String × String) × Graph) :
    List (String × String) × Graph :=
  ops.foldl linkStep st

/-- Last source pad a given sink pad is linked to in a sequence of link
operations. -/
def lastLink : List (String × String) → String → Option String
  | [], _ => none
  | q :: rest, snk =>
      match lastLink rest snk with
      | some u => some u
      | none => if q.1 = snk then some q.2 else none

/-- Drain loop of _SubProcessTransSink._sub_process_wrapper (subprocess.py),
entered when process_shutdown is set and process_stop is not.  The input
list is the successive observations of the in queue, true meaning the queue
was observed non empty; the Nat arguments are the index of the next
observation and the tries counter.  The result is the list of indices at
which sub_process_internal was invoked and whether the loop exited (false
means the finite observation prefix was exhausted with the loop still
running).  The loop body is: if the queue is non empty invoke the function
and reset tries to zero, otherwise sleep one second, increment tries and
break once tries exceeds num_empty = 3. -/
def drainLoop : List Bool → Nat → Nat → List Nat × Bool
  | [], _, _ => ([], false)
  | b :: rest, i, tries =>
      if b then
        let r := drainLoop rest (i + 1) 0
        (i :: r.1, r.2)
      else
        if tries + 1 > 3 then ([], true)
        else drainLoop rest (i + 1) (tries + 1)

/-- Entry of the process wide shared memory roster SubProcess.shm_list: the
region name, the shared memory region (modelled by its byte contents) and
the extra keyword entries. -/
structure ShmEntry where
  name : String
  shm : List Nat
  extra : List (String × String)
  deriving DecidableEq, Repr

/-- State touched by SubProcess.to_shm: the names of OS level shared memory
regions currently in existence and the process wide roster. -/
structure ShmState where
  os : List String
  shm_list : List ShmEntry
  deriving DecidableEq, Repr

/-- Cleanup performed in the FileExistsError branch of SubProcess.to_shm:
every region recorded in the roster is unlinked and the roster is cleared. -/
def unlinkRoster (st : ShmState) : ShmState :=
  { os := st.os.filter (fun n => st.shm_list.all (fun d => decide (¬ d.name = n))),
    shm_list := [] }

/-- SubProcess.to_shm from subprocess.py: creating the region fails with
FileExistsError when the name already exists, in which case every rostered
region is unlinked, the roster is cleared and the error is re raised;
otherwise the bytes are written, the entry with the name, the region and the
extra keyword entries is appended to the roster and returned. -/
def to_shm (st : ShmState) (name : String) (bytez : List Nat)
    (kwargs : List (String × String)) : Except ShmState (ShmState × ShmEntry) :=
  if name ∈ st.os then .error (unlinkRoster st)
  else
    let entry : ShmEntry := { name := name, shm := bytez, extra := kwargs }
    .ok ({ os := st.os ++ [name], shm_list := st.shm_list ++ [entry] }, entry)

/-- Node set of the dependency graph as graphlib.TopologicalSorter sees it:
all keys together with every node mentioned as a predecessor. -/
def allNodes (g : Graph) : List String :=
  (g.map (fun q => q.1) ++ (g.map (fun q => q.2)).flatten).dedup

/-- One choice of a ready node: the first remaining node all of whose
predecessors are done. -/
def pickReady (g : Graph) (done remaining : List String) : Option String :=
  remaining.find? (fun n => (predsOf g n).all (fun p => decide (p ∈ done)))

/-- Kahn style topological sort, modelling graphlib.TopologicalSorter
prepare and get_ready: none models Cycle Error raised by prepare. -/
def kahnAux (g : Graph) : Nat → List String → List String → Option (List String)
  | 0, _, remaining => if remaining.isEmpty then some [] else none
  | fuel + 1, done, remaining =>
      if remaining.isEmpty then some []
      else
        match pickReady g done remaining with
        | none => none
        | some n =>
            (kahnAux g fuel (done ++ [n]) (remaining.erase n)).map (fun order => n :: order)

/-- Topological sort of the whole graph, or none when the graph has a cycle
(graphlib raises CycleError from prepare in that case). -/
def kahn (g : Graph) : Option (List String) :=
  kahnAux g (allNodes g).length [] (allNodes g)

/-- Orders the scheduler of Pipeline.__execute_graphs can produce within one
frame cycle: starting from the nodes already done, repeatedly execute any
node that is not done yet and whose predecessors are all done.  Every
sequence of get_ready waves of graphlib satisfies this relation. -/
inductive TopoOrder (g : Graph) : List String → List String → Prop
  | nil : ∀ done, TopoOrder g done []
  | cons : ∀ done n rest, n ∉ done → (∀ p ∈ predsOf g n, p ∈ done) →
      TopoOrder g (done ++ [n]) rest → TopoOrder g done (n :: rest)

/-- Index of the first occurrence of a node in an execution order. -/
def idxOf : List String → String → Nat
  | [], _ => 0
  | a :: l, x => if a = x then 0 else idxOf l x + 1

/-- Non empty path in the dependency graph, following edges from a
predecessor to its dependent node. -/
inductive PathTo (g : Graph) : String → String → Prop
  | single : ∀ a b, a ∈ predsOf g b → PathTo g a b
  | cons : ∀ a b c, a ∈ predsOf g b → PathTo g b c → PathTo g a c

/-- Cycle in the merged dependency graph. -/
def HasCycle (g : Graph) : Prop := ∃ n, PathTo g n n

/-- EOS table of a SinkElement (base.py): one boolean per sink pad. -/
structure SinkElem where
  name : String
  eosTable : List (String × Bool)
  deriving DecidableEq, Repr

/-- SinkElement.at_eos: true iff any sink pad of the element is flagged. -/
def elemAtEOS (e : SinkElem) : Bool := e.eosTable.any (fun q => q.2)

/-- SinkElement.__post_init__: the EOS table maps every sink pad, whose full
name is elementname:sink:padname, to false. -/
def mkSinkElem (ename : String) (padNames : List String) : SinkElem :=
  { name := ename,
    eosTable := padNames.map (fun n => (ename ++ ":sink:" ++ n, false)) }

/-- User supplied element callbacks, as the pads call them.  produce models
SourceElement.new and TransformElement.transform: from the pad name and the
observable execution history it returns the Frame the user constructs.
pullMark models the pull callback of a SinkElement: from the element name,
the pad name and the received frame it decides whether pull calls
mark_eos(pad), the only sanctioned mutation of the EOS table. -/
structure Callbacks where
  produce : String → List String → Frame
  pullMark : String → String → Frame → Bool

/-- State of a pipeline during Pipeline.run.  Frames are kept in a heap and
pads store references (indices) into it, modelling Python object identity:
SourcePad.output and SinkPad.input are references, and SinkPad.__call__
copies the reference, not the frame.  log records the pads whose callback
has been invoked, in order, modelling the observable invocation history. -/
structure PipeState where
  srcPads : List String
  snkPads : List String
  other : List (String × String)
  owner : List (String × String)
  graph : Graph
  sinks : List SinkElem
  outputs : List (String × Nat)
  inputs : List (String × Nat)
  heap : List Frame
  log : List String
  deriving DecidableEq, Repr

/-- Errors of the execution engine: failed assertions in pad calls, and the
CycleError graphlib raises from prepare. -/
inductive SgnError
  | assertionError
  | cycleError
  deriving DecidableEq, Repr

/-- Append to the __graph__ metadata entry of a frame, modelling the
statement metadata ... += in SourcePad.__call__ and SinkPad.__call__. -/
def metaAppendGraph (md : List (String × String)) (s : String) : List (String × String) :=
  md.map (fun q => if q.1 = "__graph__" then (q.1, q.2 ++ s) else q)

/-- Frame with text appended to its __graph__ metadata entry. -/
def frameAppendGraph (f : Frame) (s : String) : Frame :=
  { f with metadata := metaAppendGraph f.metadata s }

/-- SinkElement.mark_eos: set the flag of one sink pad of one element. -/
def markEos (st : PipeState) (ename pname : String) : PipeState :=
  { st with
    sinks := st.sinks.map (fun e =>
      if e.name = ename then { e with eosTable := setVal e.eosTable pname true } else e) }

/-- Effect of SourcePad.__call__ on the pipeline state: the produce
callback is invoked, the frame it constructed gets the pad name appended to
its __graph__ metadata, is allocated in the heap, and the reference is
stored as the pad output. -/
def srcStepState (cb : Callbacks) (st : PipeState) (p : String) : PipeState :=
  { st with
    heap := st.heap ++ [frameAppendGraph
      (mkFrame (cb.produce p st.log).EOS (cb.produce p st.log).is_gap
        (cb.produce p st.log).metadata) ("-> " ++ p ++ " ")],
    outputs := setVal st.outputs p st.heap.length,
    log := st.log ++ [p] }

/-- Effect of SinkPad.__call__ on the pipeline state, before the pull
callback: the reference r read from the linked source pad is stored as the
input of the sink pad, and the referenced frame (the same heap cell) gets
the pad name appended to its __graph__ metadata. -/
def snkStepState (st : PipeState) (p : String) (r : Nat) : PipeState :=
  { st with
    heap := st.heap.set r
      (frameAppendGraph (st.heap.getD r (mkFrame false false [])) ("-> " ++ p ++ " ")),
    inputs := setVal st.inputs p r,
    log := st.log ++ [p] }

/-- Execution of one pad, modelling SourcePad.__call__ and
SinkPad.__call__ from base.py.  A sink pad asserts it is linked, asserts
the linked source pad holds a frame, stores the reference as its input and
invokes the pull callback, which on a sink element may mark the pad EOS.
Assertion failures carry the state at the moment they are raised. -/
def execPad (cb : Callbacks) (st : PipeState) (p : String) :
    Except (SgnError × PipeState) PipeState :=
  if p ∈ st.srcPads then .ok (srcStepState cb st p)
  else if p ∈ st.snkPads then
    match lookupVal st.other p with
    | none => .error (.assertionError, st)
    | some src =>
        match lookupVal st.outputs src with
        | none => .error (.assertionError, st)
        | some r =>
            match lookupVal st.owner p with
            | none => .ok (snkStepState st p r)
            | some ename =>
                if cb.pullMark ename p ((snkStepState st p r).heap.getD r (mkFrame false false []))
                then .ok (markEos (snkStepState st p r) ename p)
                else .ok (snkStepState st p r)
  else .error (.assertionError, st)

/-- Execution of the pads of one frame cycle in the given order. -/
def execOrder (cb : Callbacks) : List String → PipeState → Except (SgnError × PipeState) PipeState
  | [], st => .ok st
  | p :: rest, st =>
      match execPad cb st p with
      | .error e => .error e
      | .ok st2 => execOrder cb rest st2

/-- One frame cycle of Pipeline.__execute_graphs: build a fresh topological
sorter over the pad dependency graph (prepare raises CycleError on a cyclic
graph, before any pad has been invoked in the cycle) and execute every pad
in a topological order. -/
def runCycle (cb : Callbacks) (st : PipeState) : Except (SgnError × PipeState) PipeState :=
  match kahn st.graph with
  | none => .error (.cycleError, st)
  | some order => execOrder cb order st

/-- Result state of one successful frame cycle (identity on states whose
cycle raises). -/
def stepCycle (cb : Callbacks) (st : PipeState) : PipeState :=
  match runCycle cb st with
  | .ok st2 => st2
  | .error _ => st

/-- Global EOS predicate of the outer loop of Pipeline.__execute_graphs:
every SinkElement of the pipeline is at EOS. -/
def pipelineAtEOS (st : PipeState) : Bool := st.sinks.all elemAtEOS

/-- Outer frame loop of Pipeline.__execute_graphs with explicit fuel:
while not every sink element is at EOS, run one frame cycle; an uncaught
error of the cycle propagates.  none means the loop has not returned within
fuel frame cycles. -/
def executeGraphs (cb : Callbacks) : Nat → PipeState → Option (Except (SgnError × PipeState) PipeState)
  | 0, st => if pipelineAtEOS st then some (.ok st) else none
  | n + 1, st =>
      if pipelineAtEOS st then some (.ok st)
      else
        match runCycle cb st with
        | .error e => some (.error e)
        | .ok st2 => executeGraphs cb n st2

/-- Check that a sink pad appearing in the graph was linked the way
Pipeline.link links it: SinkPad.other points at a source pad which is also
its unique predecessor in the merged graph. -/
def linkedSrcOK (srcPads : List String) (other : List (String × String)) (g : Graph)
    (s : String) : Bool :=
  match lookupVal other s with
  | none => false
  | some src => decide (predsOf g s = [src]) && decide (src ∈ srcPads)

/-- Structural well formedness of a pipeline state, as Pipeline.insert and
Pipeline.link establish it: every node of the dependency graph is a source
pad or a sink pad, no pad is both, and every sink pad occurring in the
graph is linked, with the linked source pad as its unique predecessor. -/
def wfCore (srcPads snkPads : List String) (other : List (String × String)) (g : Graph) : Bool :=
  (allNodes g).all (fun n => decide (n ∈ srcPads) || decide (n ∈ snkPads)) &&
  srcPads.all (fun n => decide (n ∉ snkPads)) &&
  snkPads.all (fun s => (decide (s ∉ allNodes g)) || linkedSrcOK srcPads other g s)

/-- Well formedness of a pipeline state. -/
def WFpipe (st : PipeState) : Bool := wfCore st.srcPads st.snkPads st.other st.graph

/-- Pipeline constructed by Pipeline.__init__: empty registry, empty graph,
no sinks. -/
def emptyPipe : PipeState :=
  { srcPads := [], snkPads := [], other := [], owner := [], graph := [],
    sinks := [], outputs := [], inputs := [], heap := [], log := [] }

/-- Callbacks used by concrete witnesses: produce yields a plain frame and
pull never marks EOS. -/
def cbW : Callbacks :=
  { produce := fun _ _ => { EOS := false, is_gap := false, metadata := [] },
    pullMark := fun _ _ _ => false }

/-- Callbacks of an idiomatic pipeline: the source immediately produces an
EOS frame and the sink pull marks EOS when the received frame is EOS. -/
def cbM : Callbacks :=
  { produce := fun _ _ => { EOS := true, is_gap := false, metadata := [] },
    pullMark := fun _ _ f => f.EOS }

/-- Pipeline src1 -> snk1: one source element with source pad s:src:O and
one sink element k with sink pad k:sink:I linked to it. -/
def w1 : PipeState :=
  { srcPads := ["s:src:O"], snkPads := ["k:sink:I"],
    other := [("k:sink:I", "s:src:O")], owner := [("k:sink:I", "k")],
    graph := [("k:sink:I", ["s:src:O"])],
    sinks := [mkSinkElem "k" ["I"]],
    outputs := [], inputs := [], heap := [], log := [] }

/-- Pipeline with two transform elements linked in a cycle and no sink
element: t1 source pad depends on t1 sink pad (intra element), t1 sink pad
is linked to t2 source pad, and symmetrically, closing the cycle. -/
def cyclePipe : PipeState :=
  { srcPads := ["t1:src:O", "t2:src:O"], snkPads := ["t1:sink:I", "t2:sink:I"],
    other := [("t1:sink:I", "t2:src:O"), ("t2:sink:I", "t1:src:O")],
    owner := [],
    graph := [("t1:src:O", ["t1:sink:I"]), ("t1:sink:I", ["t2:src:O"]),
              ("t2:src:O", ["t2:sink:I"]), ("t2:sink:I", ["t1:src:O"])],
    sinks := [], outputs := [], inputs := [], heap := [], log := [] }

/-- Pipeline with the same transform cycle as cyclePipe plus one sink
element k whose sink pad is linked to a source pad on the cycle. -/
def cycleSinkPipe : PipeState :=
  { srcPads := ["t1:src:O", "t2:src:O"], snkPads := ["t1:sink:I", "t2:sink:I", "k:sink:I"],
    other := [("t1:sink:I", "t2:src:O"), ("t2:sink:I", "t1:src:O"), ("k:sink:I", "t1:src:O")],
    owner := [("k:sink:I", "k")],
    graph := [("t1:src:O", ["t1:sink:I"]), ("t1:sink:I", ["t2:src:O"]),
              ("t2:src:O", ["t2:sink:I"]), ("t2:sink:I", ["t1:src:O"]),
              ("k:sink:I", ["t1:src:O"])],
    sinks := [mkSinkElem "k" ["I"]], outputs := [], inputs := [], heap := [], log := [] }

/-- Graph of a source element feeding one transform element, used as a
concrete scheduling witness. -/
def g3 : Graph := [("t:sink:I", ["s:src:O"]), ("t:src:O", ["t:sink:I"]), ("s:src:O", [])]

/-- A scheduling order of g3. -/
def order3 : List String := ["s:src:O", "t:sink:I", "t:src:O"]

/-- Fan out pipeline: one source pad linked to the sink pads of two sink
elements k1 and k2. -/
def st5 : PipeState :=
  { srcPads := ["s:src:O"], snkPads := ["k1:sink:I", "k2:sink:I"],
    other := [("k1:sink:I", "s:src:O"), ("k2:sink:I", "s:src:O")],
    owner := [("k1:sink:I", "k1"), ("k2:sink:I", "k2")],
    graph := [("k1:sink:I", ["s:src:O"]), ("k2:sink:I", ["s:src:O"])],
    sinks := [mkSinkElem "k1" ["I"], mkSinkElem "k2" ["I"]],
    outputs := [], inputs := [], heap := [], log := [] }

/-- A scheduling order of the fan out pipeline graph. -/
def order5 : List String := ["s:src:O", "k1:sink:I", "k2:sink:I"]

/-- State after one frame cycle of the fan out pipeline. -/
def c5final : PipeState :=
  match execOrder cbW order5 st5 with
  | .ok s => s
  | .error e => e.2

/-- Static linkage context of a fan out: a source pad and two sink pads,
each linked to it (SinkPad.other) and depending on it in the graph. -/
def fanCtx (g : Graph) (src snk1 snk2 : String) (st : PipeState) : Prop :=
  src ∈ st.srcPads ∧
  snk1 ∈ st.snkPads ∧ snk1 ∉ st.srcPads ∧
    lookupVal st.other snk1 = some src ∧ src ∈ predsOf g snk1 ∧
  snk2 ∈ st.snkPads ∧ snk2 ∉ st.srcPads ∧
    lookupVal st.other snk2 = some src ∧ src ∈ predsOf g snk2

/-- Fan out coherence invariant during one frame cycle: once the source pad
has executed, its output holds a reference to a frame allocated during this
cycle, and each linked sink pad that has executed stores that very
reference as its input. -/
def fanInv (base : Nat) (src snk1 snk2 : String) (done : List String)
    (st : PipeState) : Prop :=
  src ∈ done → ∃ r, lookupVal st.outputs src = some r ∧ base ≤ r ∧ r < st.heap.length ∧
    (snk1 ∈ done → lookupVal st.inputs snk1 = some r) ∧
    (snk2 ∈ done → lookupVal st.inputs snk2 = some r)

theorem lookupVal_setVal_self {α : Type} (m : List (String × α)) (k : String) (v : α) :
    lookupVal (setVal m k v) k = some v := by
  induction m with
  | nil => simp [setVal, lookupVal]
  | cons q rest ih =>
      by_cases h : q.1 = k
      · simp [setVal, h, lookupVal]
      · simp [setVal, h, lookupVal, ih]

theorem lookupVal_setVal_ne {α : Type} (m : List (String × α)) (k k' : String) (v : α)
    (h : k ≠ k') : lookupVal (setVal m k v) k' = lookupVal m k' := by
  induction m with
  | nil => simp [setVal, lookupVal, h]
  | cons q rest ih =>
      by_cases hq : q.1 = k
      · simp [setVal, hq, lookupVal, h, hq.symm ▸ h]
      · simp [setVal, hq, lookupVal, ih]

/-- C9: Every Frame construction, whatever metadata mapping the caller
supplies, yields a frame whose metadata binds the key __graph__ to the
empty string, because Frame.__post_init__ unconditionally overwrites any
caller supplied value stored under that key. -/
theorem c9_frame_graph_metadata (eos gap : Bool) (md : List (String × String)) :
    lookupVal (mkFrame eos gap md).metadata "__graph__" = some "" := by
  simp [mkFrame, lookupVal_setVal_self]

theorem insertPads_not_ok (pads : List String) :
    ∀ reg p, p ∈ pads → p ∈ reg → (insertPads reg pads).isOk = false := by
  induction pads with
  | nil => intro reg p hp; simp at hp
  | cons q rest ih =>
      intro reg p hp hpr
      by_cases hq : q ∈ reg
      · simp [insertPads, hq, Except.isOk, Except.toBool]
      · rcases List.mem_cons.mp hp with h | h
        · exact absurd (h ▸ hpr) hq
        · simpa [insertPads, hq] using ih (reg ++ [q]) p h (List.mem_append_left _ hpr)

theorem insertPads_ok (pads : List String) :
    ∀ reg res, insertPads reg pads = .ok res → res = reg ++ pads := by
  induction pads with
  | nil =>
      intro reg res h
      simp [insertPads] at h
      simp [h.symm]
  | cons q rest ih =>
      intro reg res h
      by_cases hq : q ∈ reg
      · simp [insertPads, hq] at h
      · simp only [insertPads, if_neg hq] at h
        simpa [List.append_assoc] using ih (reg ++ [q]) res h

/-- C4: Pipeline.insert fails whenever the element name or any pad name is
already present in the single name registry, on success interns the element
name and every pad name into that registry, and therefore inserting two
elements with the same name, or two pads with the same name, always
fails. -/
theorem c4_insert_name_uniqueness (reg : List String) (ename : String) (pads : List String) :
    (ename ∈ reg → insertElement reg ename pads = .error reg)
    ∧ (∀ p ∈ pads, p ∈ reg → (insertElement reg ename pads).isOk = false)
    ∧ (∀ res, insertElement reg ename pads = .ok res → res = reg ++ ename :: pads)
    ∧ (∀ res, insertElement reg ename pads = .ok res →
        ∀ pads2, (insertElement res ename pads2).isOk = false)
    ∧ (∀ res, insertElement reg ename pads = .ok res →
        ∀ ename2 pads2 p, p ∈ pads → p ∈ pads2 → (insertElement res ename2 pads2).isOk = false) := by
  refine ⟨fun h => by simp [insertElement, h], fun p hp hpr => ?_, fun res h => ?_,
    fun res h pads2 => ?_, fun res h ename2 pads2 p hp hp2 => ?_⟩
  · by_cases he : ename ∈ reg
    · simp [insertElement, he, Except.isOk, Except.toBool]
    · simpa [insertElement, he] using
        insertPads_not_ok pads (reg ++ [ename]) p hp (List.mem_append_left _ hpr)
  · by_cases he : ename ∈ reg
    · simp [insertElement, he] at h
    · simp only [insertElement, if_neg he] at h
      simpa using insertPads_ok pads (reg ++ [ename]) res h
  · have hres : res = reg ++ ename :: pads := by
      by_cases he : ename ∈ reg
      · simp [insertElement, he] at h
      · simp only [insertElement, if_neg he] at h
        simpa using insertPads_ok pads (reg ++ [ename]) res h
    have : ename ∈ res := by simp [hres]
    simp [insertElement, this, Except.isOk, Except.toBool]
  · have hres : res = reg ++ ename :: pads := by
      by_cases he : ename ∈ reg
      · simp [insertElement, he] at h
      · simp only [insertElement, if_neg he] at h
        simpa using insertPads_ok pads (reg ++ [ename]) res h
    have hpr : p ∈ res := by simp [hres, List.mem_append, hp]
    by_cases he : ename2 ∈ res
    · simp [insertElement, he, Except.isOk, Except.toBool]
    · simpa [insertElement, he] using
        insertPads_not_ok pads2 (res ++ [ename2]) p hp2 (List.mem_append_left _ hpr)

/-- Witness for c4_insert_name_uniqueness: inserting src1 once succeeds and
interns the element and pad names; re-inserting src1, or inserting another
element sharing the pad name, fails. -/
theorem c4_insert_name_uniqueness_witness :
    (insertElement ["src1", "src1:src:H1"] "src1" ["src1:src:H2"]).isOk = false
    ∧ (insertElement ["src1", "src1:src:H1"] "src2" ["src1:src:H1"]).isOk = false := by
  have h : insertElement [] "src1" ["src1:src:H1"] = .ok ["src1", "src1:src:H1"] := rfl
  exact ⟨(c4_insert_name_uniqueness [] "src1" ["src1:src:H1"]).2.2.2.1 _ h ["src1:src:H2"],
    (c4_insert_name_uniqueness [] "src1" ["src1:src:H1"]).2.2.2.2 _ h "src2" ["src1:src:H1"]
      "src1:src:H1" (by simp) (by simp)⟩

theorem pipelineLink_lookup (ops : List (String × String)) :
    ∀ o g snk,
      lookupVal (pipelineLink ops (o, g)).1 snk =
        (match lastLink ops snk with
         | some u => some u
         | none => lookupVal o snk)
      ∧ lookupVal (pipelineLink ops (o, g)).2 snk =
        (match lastLink ops snk with
         | some u => some [u]
         | none => lookupVal g snk) := by
  induction ops with
  | nil => intro o g snk; exact ⟨rfl, rfl⟩
  | cons op rest ih =>
      intro o g snk
      have hstep : pipelineLink (op :: rest) (o, g) =
          pipelineLink rest (setVal o op.1 op.2, setVal g op.1 [op.2]) := rfl
      rw [hstep]
      rcases ih (setVal o op.1 op.2) (setVal g op.1 [op.2]) snk with ⟨h1, h2⟩
      rw [h1, h2]
      cases hl : lastLink rest snk with
      | some u => simp [lastLink, hl]
      | none =>
          by_cases hop : op.1 = snk
          · simp [lastLink, hl, hop, lookupVal_setVal_self]
          · simp [lastLink, hl, hop, lookupVal_setVal_ne _ _ _ _ hop]

/-- C8: SinkPad.link on an already linked sink pad does not fail: it
replaces the stored source pad and returns a fresh one entry dependency
map, and the graph update of Pipeline.link replaces the predecessor set of
the sink pad; hence after any sequence of link operations a linked sink pad
has exactly one linked source pad and exactly one predecessor in the
pipeline graph, the last link winning. -/
theorem c8_link_last_wins (ops : List (String × String)) (o : List (String × String))
    (g : Graph) (snk src : String) :
    (sinkLink o snk src = (setVal o snk src, [(snk, [src])]))
    ∧ (lastLink ops snk = some src →
        lookupVal (pipelineLink ops (o, g)).1 snk = some src
        ∧ predsOf (pipelineLink ops (o, g)).2 snk = [src]) := by
  refine ⟨rfl, fun h => ?_⟩
  rcases pipelineLink_lookup ops o g snk with ⟨h1, h2⟩
  rw [h] at h1 h2
  exact ⟨h1, by simp [predsOf, h2]⟩

/-- Witness for c8_link_last_wins: linking sink pad b to a and then to c
leaves b linked to c with unique predecessor c. -/
theorem c8_link_last_wins_witness :
    lookupVal (pipelineLink [("b", "a"), ("b", "c")] ([], [])).1 "b" = some "c"
    ∧ predsOf (pipelineLink [("b", "a"), ("b", "c")] ([], [])).2 "b" = ["c"] :=
  (c8_link_last_wins [("b", "a"), ("b", "c")] [] [] "b" "c").2 rfl

/-- C6 counterexample: after the in queue has been observed empty for three
consecutive 1 second polls the drain loop has not exited: it is still
polling, and a following non empty observation still triggers an invocation
of sub_process_internal (at index 3); the loop exits only once a fourth
consecutive empty poll has been observed, because the counter is
incremented before the strict comparison with num_empty = 3. -/
theorem c6_drain_counterexample :
    drainLoop [false, false, false] 0 0 = ([], false)
    ∧ drainLoop [false, false, false, true] 0 0 = ([3], false)
    ∧ drainLoop [false, false, false, false] 0 0 = ([], true) :=
  ⟨rfl, rfl, rfl⟩

/-- C6 amended: in drain mode the worker invokes sub_process_internal at
every poll that observes the in queue non empty and resets the empty poll
counter, an empty poll below the threshold just increments the counter, and
the loop exits after the fourth consecutive empty 1 second poll (counter at
3 plus the current poll). -/
theorem c6_drain_amended (rest : List Bool) (i tries : Nat) :
    (drainLoop (true :: rest) i tries =
      (i :: (drainLoop rest (i + 1) 0).1, (drainLoop rest (i + 1) 0).2))
    ∧ (tries + 1 ≤ 3 → drainLoop (false :: rest) i tries = drainLoop rest (i + 1) (tries + 1))
    ∧ drainLoop (false :: rest) i 3 = ([], true) := by
  refine ⟨rfl, fun h => ?_, by simp [drainLoop]⟩
  simp [drainLoop, Nat.not_lt.mpr h]

/-- Witness for c6_drain_amended at concrete inputs. -/
theorem c6_drain_amended_witness :
    drainLoop [false] 5 0 = drainLoop [] 6 1 ∧ drainLoop [false] 7 3 = ([], true) :=
  ⟨(c6_drain_amended [] 5 0).2.1 (by decide), (c6_drain_amended [] 7 3).2.2⟩

/-- C7: to_shm with a fresh name records the dictionary of region name,
shared memory object and extra keyword entries in the process wide roster
and returns it; to_shm with a name that already exists raises without
adding a roster entry for the duplicate (the error path in fact unlinks
every rostered region and clears the whole roster before re raising). -/
theorem c7_to_shm (st : ShmState) (name : String) (bytez : List Nat)
    (kwargs : List (String × String)) :
    (name ∉ st.os →
      to_shm st name bytez kwargs =
        .ok ({ os := st.os ++ [name], shm_list := st.shm_list ++ [⟨name, bytez, kwargs⟩] },
          (⟨name, bytez, kwargs⟩ : ShmEntry)))
    ∧ (name ∈ st.os →
      to_shm st name bytez kwargs = .error (unlinkRoster st)
        ∧ (unlinkRoster st).shm_list.all (fun d => decide (¬ d.name = name)) = true)
    ∧ (∀ st2 entry, to_shm st name bytez kwargs = .ok (st2, entry) →
        entry.name = name ∧ entry.shm = bytez ∧ entry.extra = kwargs ∧ entry ∈ st2.shm_list
        ∧ ∀ bytez2 kwargs2, to_shm st2 name bytez2 kwargs2 = .error (unlinkRoster st2)
            ∧ (unlinkRoster st2).shm_list = []) := by
  refine ⟨fun h => by simp [to_shm, h], fun h => ⟨by simp [to_shm, h], by simp [unlinkRoster]⟩,
    fun st2 entry h => ?_⟩
  by_cases hn : name ∈ st.os
  · simp [to_shm, hn] at h
  · simp only [to_shm, if_neg hn] at h
    injection h with h
    injection h with h1 h2
    refine ⟨by simp [← h2], by simp [← h2], by simp [← h2], ?_, fun bytez2 kwargs2 => ?_⟩
    · rw [← h1, ← h2]; simp
    · have : name ∈ st2.os := by rw [← h1]; simp
      exact ⟨by simp [to_shm, this], by simp [unlinkRoster]⟩

/-- Witness for c7_to_shm: registering region x succeeds and records the
entry; registering the same name again is fatal and adds no entry for it. -/
theorem c7_to_shm_witness :
    to_shm ⟨[], []⟩ "x" [1, 2] [("k", "v")] =
      .ok (⟨["x"], [⟨"x", [1, 2], [("k", "v")]⟩]⟩, ⟨"x", [1, 2], [("k", "v")]⟩)
    ∧ to_shm ⟨["x"], [⟨"x", [1, 2], [("k", "v")]⟩]⟩ "x" [3] [] =
        .error (unlinkRoster ⟨["x"], [⟨"x", [1, 2], [("k", "v")]⟩]⟩)
    ∧ (unlinkRoster ⟨["x"], [⟨"x", [1, 2], [("k", "v")]⟩]⟩).shm_list = [] := by
  refine ⟨(c7_to_shm ⟨[], []⟩ "x" [1, 2] [("k", "v")]).1 (by simp), ?_⟩
  have h := (c7_to_shm ⟨[], []⟩ "x" [1, 2] [("k", "v")]).2.2
    ⟨["x"], [⟨"x", [1, 2], [("k", "v")]⟩]⟩ ⟨"x", [1, 2], [("k", "v")]⟩ rfl
  exact ⟨(h.2.2.2.2 [3] []).1, (h.2.2.2.2 [3] []).2⟩

theorem topo_not_mem_done {g : Graph} {done order : List String}
    (h : TopoOrder g done order) : ∀ x ∈ order, x ∉ done := by
  induction h with
  | nil => intro x hx; simp at hx
  | cons done n rest hnd hpre htail ih =>
      intro x hx
      rcases List.mem_cons.mp hx with h | h
      · exact h ▸ hnd
      · exact fun hxd => ih x h (List.mem_append_left _ hxd)

theorem topo_before {g : Graph} {done order : List String}
    (h : TopoOrder g done order) : ∀ b ∈ order, ∀ a ∈ predsOf g b,
      a ∈ done ∨ (a ∈ order ∧ idxOf order a < idxOf order b) := by
  induction h with
  | nil => intro b hb; simp at hb
  | cons done n rest hnd hpre htail ih =>
      intro b hb a ha
      rcases List.mem_cons.mp hb with hbn | hbr
      · exact Or.inl (hpre a (hbn ▸ ha))
      · have hbne : b ≠ n := fun hb2 =>
          topo_not_mem_done htail b hbr (hb2 ▸ List.mem_append_right _ (by simp))
        rcases ih b hbr a ha with had | ⟨har, hlt⟩
        · rcases List.mem_append.mp had with hd | hn2
          · exact Or.inl hd
          · have han : a = n := by simpa using hn2
            refine Or.inr ⟨han ▸ List.mem_cons_self _ _, ?_⟩
            rw [idxOf, if_pos han.symm, idxOf, if_neg (fun h2 => hbne h2.symm)]
            omega
        · have hane : a ≠ n := fun ha2 =>
            topo_not_mem_done htail a har (ha2 ▸ List.mem_append_right _ (by simp))
          refine Or.inr ⟨List.mem_cons_of_mem _ har, ?_⟩
          rw [idxOf, if_neg (fun h2 => hane h2.symm), idxOf, if_neg (fun h2 => hbne h2.symm)]
          omega

theorem pickReady_spec {g : Graph} {done remaining : List String} {n : String}
    (h : pickReady g done remaining = some n) :
    n ∈ remaining ∧ ∀ p ∈ predsOf g n, p ∈ done := by
  refine ⟨List.mem_of_find?_eq_some h, ?_⟩
  have := List.find?_some h
  simpa [List.all_eq_true] using this

theorem kahnAux_topo (g : Graph) :
    ∀ fuel done remaining order, (∀ x ∈ remaining, x ∉ done) → remaining.Nodup →
      kahnAux g fuel done remaining = some order → TopoOrder g done order := by
  intro fuel
  induction fuel with
  | zero =>
      intro done remaining order _ _ h
      by_cases hr : remaining.isEmpty = true
      · simp only [kahnAux, if_pos hr, Option.some.injEq] at h
        exact h ▸ TopoOrder.nil done
      · simp [kahnAux, hr] at h
  | succ fuel ih =>
      intro done remaining order hdisj hnd h
      by_cases hr : remaining.isEmpty = true
      · simp only [kahnAux, if_pos hr, Option.some.injEq] at h
        exact h ▸ TopoOrder.nil done
      · simp only [kahnAux, if_neg hr] at h
        cases hp : pickReady g done remaining with
        | none => rw [hp] at h; simp at h
        | some n =>
            rw [hp] at h
            rcases Option.map_eq_some'.mp h with ⟨order2, h2, horder⟩
            rcases pickReady_spec hp with ⟨hnr, hnp⟩
            refine horder ▸ TopoOrder.cons done n order2 (hdisj n hnr) hnp ?_
            refine ih (done ++ [n]) (remaining.erase n) order2 ?_ (hnd.erase n) h2
            intro x hx
            rcases (hnd.mem_erase_iff.mp hx) with ⟨hxn, hxr⟩
            intro hmem
            rcases List.mem_append.mp hmem with h3 | h3
            · exact hdisj x hxr h3
            · exact hxn (by simpa using h3)

theorem kahnAux_complete (g : Graph) :
    ∀ fuel done remaining order, kahnAux g fuel done remaining = some order →
      ∀ x ∈ remaining, x ∈ order := by
  intro fuel
  induction fuel with
  | zero =>
      intro done remaining order h x hx
      by_cases hr : remaining.isEmpty = true
      · rw [List.isEmpty_iff.mp hr] at hx; simp at hx
      · simp [kahnAux, hr] at h
  | succ fuel ih =>
      intro done remaining order h x hx
      by_cases hr : remaining.isEmpty = true
      · rw [List.isEmpty_iff.mp hr] at hx; simp at hx
      · simp only [kahnAux, if_neg hr] at h
        cases hp : pickReady g done remaining with
        | none => rw [hp] at h; simp at h
        | some n =>
            rw [hp] at h
            rcases Option.map_eq_some'.mp h with ⟨order2, h2, horder⟩
            subst horder
            by_cases hxn : x = n
            · exact hxn ▸ List.mem_cons_self _ _
            · exact List.mem_cons_of_mem _
                (ih (done ++ [n]) (remaining.erase n) order2 h2 x
                  (List.mem_erase_of_ne hxn |>.mpr hx))

theorem kahnAux_subset (g : Graph) :
    ∀ fuel done remaining order, kahnAux g fuel done remaining = some order →
      ∀ x ∈ order, x ∈ remaining := by
  intro fuel
  induction fuel with
  | zero =>
      intro done remaining order h x hx
      by_cases hr : remaining.isEmpty = true
      · simp only [kahnAux, if_pos hr, Option.some.injEq] at h
        rw [← h] at hx; simp at hx
      · simp [kahnAux, hr] at h
  | succ fuel ih =>
      intro done remaining order h x hx
      by_cases hr : remaining.isEmpty = true
      · simp only [kahnAux, if_pos hr, Option.some.injEq] at h
        rw [← h] at hx; simp at hx
      · simp only [kahnAux, if_neg hr] at h
        cases hp : pickReady g done remaining with
        | none => rw [hp] at h; simp at h
        | some n =>
            rw [hp] at h
            rcases Option.map_eq_some'.mp h with ⟨order2, h2, horder⟩
            subst horder
            rcases List.mem_cons.mp hx with h3 | h3
            · exact h3 ▸ (pickReady_spec hp).1
            · exact List.erase_subset _ _ (ih (done ++ [n]) (remaining.erase n) order2 h2 x h3)

theorem kahn_topo (g : Graph) (order : List String) (h : kahn g = some order) :
    TopoOrder g [] order :=
  kahnAux_topo g (allNodes g).length [] (allNodes g) order (by simp) (List.nodup_dedup _) h

theorem kahn_complete (g : Graph) (order : List String) (h : kahn g = some order) :
    ∀ x ∈ allNodes g, x ∈ order :=
  kahnAux_complete g (allNodes g).length [] (allNodes g) order h

theorem kahn_subset (g : Graph) (order : List String) (h : kahn g = some order) :
    ∀ x ∈ order, x ∈ allNodes g :=
  kahnAux_subset g (allNodes g).length [] (allNodes g) order h

theorem lookupVal_some_mem_keys {α : Type} {m : List (String × α)} {k : String} {v : α}
    (h : lookupVal m k = some v) : k ∈ m.map (fun q => q.1) := by
  induction m with
  | nil => simp [lookupVal] at h
  | cons q rest ih =>
      by_cases hq : q.1 = k
      · simp [hq]
      · simp only [lookupVal, if_neg hq] at h
        exact List.mem_cons_of_mem _ (ih h)

theorem edge_target_allNodes {g : Graph} {a b : String} (h : a ∈ predsOf g b) :
    b ∈ allNodes g := by
  rw [predsOf] at h
  cases hl : lookupVal g b with
  | none => rw [hl] at h; simp at h
  | some ps =>
      have := lookupVal_some_mem_keys hl
      simp only [allNodes, List.mem_dedup]
      exact List.mem_append_left _ this

theorem path_target_allNodes {g : Graph} {a b : String} (h : PathTo g a b) :
    b ∈ allNodes g := by
  induction h with
  | single a b hab => exact edge_target_allNodes hab
  | cons a b c hab hbc ih => exact ih

theorem path_before {g : Graph} {order : List String} (horder : TopoOrder g [] order) :
    ∀ {a b : String}, PathTo g a b → b ∈ order →
      a ∈ order ∧ idxOf order a < idxOf order b := by
  intro a b hpath
  induction hpath with
  | single a b hab =>
      intro hb
      rcases topo_before horder b hb a hab with h | h
      · simp at h
      · exact h
  | cons a b c hab hbc ih =>
      intro hc
      rcases ih hc with ⟨hbo, hlt⟩
      rcases topo_before horder b hbo a hab with h | h
      · simp at h
      · exact ⟨h.1, lt_trans h.2 hlt⟩

theorem cycle_kahn_none {g : Graph} (h : HasCycle g) : kahn g = none := by
  cases hk : kahn g with
  | none => rfl
  | some order =>
      rcases h with ⟨n, hpath⟩
      have hn : n ∈ order :=
        kahn_complete g order hk n (path_target_allNodes hpath)
      have := path_before (kahn_topo g order hk) hpath hn
      omega

/-- C3: In every execution order the scheduler of Pipeline.__execute_graphs
can produce within one frame cycle, no pad runs before all of its
dependency graph predecessors have completed; in particular a linked sink
pad (whose predecessor set is the singleton of its linked source pad) runs
strictly after that source pad, and a source pad of a TransformElement
(whose predecessor set is the set of sink pads of the element) runs
strictly after every sink pad of its element. -/
theorem c3_scheduler_ordering (g : Graph) (order : List String)
    (h : TopoOrder g [] order) :
    (∀ b ∈ order, ∀ a ∈ predsOf g b, a ∈ order ∧ idxOf order a < idxOf order b)
    ∧ (∀ snk src, snk ∈ order → predsOf g snk = [src] →
        src ∈ order ∧ idxOf order src < idxOf order snk)
    ∧ (∀ sp snks, sp ∈ order → predsOf g sp = snks →
        ∀ q ∈ snks, q ∈ order ∧ idxOf order q < idxOf order sp) := by
  have key : ∀ b ∈ order, ∀ a ∈ predsOf g b, a ∈ order ∧ idxOf order a < idxOf order b := by
    intro b hb a ha
    rcases topo_before h b hb a ha with h0 | h1
    · simp at h0
    · exact h1
  exact ⟨key, fun snk src hs hp => key snk hs src (by simp [hp]),
    fun sp snks hs hp q hq => key sp hs q (hp ▸ hq)⟩

/-- Witness for c3_scheduler_ordering on the source to transform pipeline
graph g3 and a scheduling order produced by the topological sorter. -/
theorem c3_scheduler_ordering_witness :
    ("s:src:O" ∈ order3 ∧ idxOf order3 "s:src:O" < idxOf order3 "t:sink:I")
    ∧ ("t:sink:I" ∈ order3 ∧ idxOf order3 "t:sink:I" < idxOf order3 "t:src:O") := by
  have ht : TopoOrder g3 [] order3 := kahn_topo g3 order3 rfl
  exact ⟨(c3_scheduler_ordering g3 order3 ht).2.1 "t:sink:I" "s:src:O" (by decide) rfl,
    (c3_scheduler_ordering g3 order3 ht).2.2 "t:src:O" ["t:sink:I"] (by decide) rfl
      "t:sink:I" (by decide)⟩

theorem execPad_src_eq {cb : Callbacks} {st : PipeState} {p : String} (h : p ∈ st.srcPads) :
    execPad cb st p = .ok (srcStepState cb st p) := by
  simp [execPad, h]

theorem execPad_ok_shape {cb : Callbacks} {st : PipeState} {p : String} {st2 : PipeState}
    (h : execPad cb st p = .ok st2) :
    (p ∈ st.srcPads ∧ st2 = srcStepState cb st p)
    ∨ (p ∉ st.srcPads ∧ p ∈ st.snkPads ∧ ∃ src r,
        lookupVal st.other p = some src ∧ lookupVal st.outputs src = some r ∧
        (st2 = snkStepState st p r ∨ ∃ ename, lookupVal st.owner p = some ename ∧
          st2 = markEos (snkStepState st p r) ename p)) := by
  by_cases h1 : p ∈ st.srcPads
  · rw [execPad_src_eq h1] at h
    simp only [Except.ok.injEq] at h
    exact Or.inl ⟨h1, h.symm⟩
  · by_cases h2 : p ∈ st.snkPads
    · right
      simp only [execPad, if_neg h1, if_pos h2] at h
      split at h
      · exact Except.noConfusion h
      · rename_i src ho
        split at h
        · exact Except.noConfusion h
        · rename_i r hr
          refine ⟨h1, h2, src, r, ho, hr, ?_⟩
          split at h
          · exact Or.inl (Except.ok.inj h).symm
          · rename_i ename hw
            split at h
            · exact Or.inr ⟨ename, hw, (Except.ok.inj h).symm⟩
            · exact Or.inl (Except.ok.inj h).symm
    · simp [execPad, h1, h2] at h

theorem execPad_static {cb : Callbacks} {st : PipeState} {p : String} {st2 : PipeState}
    (h : execPad cb st p = .ok st2) :
    st2.srcPads = st.srcPads ∧ st2.snkPads = st.snkPads ∧ st2.other = st.other ∧
    st2.owner = st.owner ∧ st2.graph = st.graph := by
  rcases execPad_ok_shape h with ⟨_, h2⟩ | ⟨_, _, src, r, _, _, h2 | ⟨ename, _, h2⟩⟩ <;>
    subst h2 <;> exact ⟨rfl, rfl, rfl, rfl, rfl⟩

theorem execPad_heap_mono {cb : Callbacks} {st : PipeState} {p : String} {st2 : PipeState}
    (h : execPad cb st p = .ok st2) : st.heap.length ≤ st2.heap.length := by
  rcases execPad_ok_shape h with ⟨_, h2⟩ | ⟨_, _, src, r, _, _, h2 | ⟨ename, _, h2⟩⟩ <;>
    subst h2 <;> simp [srcStepState, snkStepState, markEos, List.length_set]

theorem setVal_true_any (t : List (String × Bool)) (p : String)
    (h : t.any (fun q => q.2) = true) : (setVal t p true).any (fun q => q.2) = true := by
  induction t with
  | nil => simp at h
  | cons q rest ih =>
      by_cases hq : q.1 = p
      · simp [setVal, hq]
      · simp only [setVal, if_neg hq]
        simp only [List.any_cons, Bool.or_eq_true] at h ⊢
        rcases h with h | h
        · exact Or.inl h
        · exact Or.inr (ih h)

theorem elemAtEOS_mark_mono (e : SinkElem) (ename pname : String) (h : elemAtEOS e = true) :
    elemAtEOS (if e.name = ename then { e with eosTable := setVal e.eosTable pname true }
      else e) = true := by
  by_cases hn : e.name = ename
  · simp only [if_pos hn, elemAtEOS]
    exact setVal_true_any _ _ h
  · simp [if_neg hn, h]

theorem pipelineAtEOS_markEos {st : PipeState} {ename pname : String}
    (h : pipelineAtEOS st = true) : pipelineAtEOS (markEos st ename pname) = true := by
  simp only [pipelineAtEOS, markEos] at h ⊢
  rw [List.all_map]
  rw [List.all_eq_true] at h ⊢
  intro e he
  simpa using elemAtEOS_mark_mono e ename pname (h e he)

theorem execPad_eos_mono {cb : Callbacks} {st : PipeState} {p : String} {st2 : PipeState}
    (h : execPad cb st p = .ok st2) (hp : pipelineAtEOS st = true) :
    pipelineAtEOS st2 = true := by
  rcases execPad_ok_shape h with ⟨_, h2⟩ | ⟨_, _, src, r, _, _, h2 | ⟨ename, _, h2⟩⟩
  · subst h2; exact hp
  · subst h2; exact hp
  · subst h2; exact pipelineAtEOS_markEos hp

theorem execOrder_cons {cb : Callbacks} {p : String} {rest : List String}
    {st st2 : PipeState} (h : execOrder cb (p :: rest) st = .ok st2) :
    ∃ stm, execPad cb st p = .ok stm ∧ execOrder cb rest stm = .ok st2 := by
  simp only [execOrder] at h
  cases he : execPad cb st p with
  | error e => rw [he] at h; simp at h
  | ok stm => rw [he] at h; exact ⟨stm, rfl, h⟩

theorem execOrder_static {cb : Callbacks} :
    ∀ {order : List String} {st st2 : PipeState}, execOrder cb order st = .ok st2 →
      st2.srcPads = st.srcPads ∧ st2.snkPads = st.snkPads ∧ st2.other = st.other ∧
      st2.owner = st.owner ∧ st2.graph = st.graph := by
  intro order
  induction order with
  | nil =>
      intro st st2 h
      simp only [execOrder, Except.ok.injEq] at h
      subst h
      exact ⟨rfl, rfl, rfl, rfl, rfl⟩
  | cons p rest ih =>
      intro st st2 h
      rcases execOrder_cons h with ⟨stm, h1, h2⟩
      have a := execPad_static h1
      have b := ih h2
      exact ⟨b.1.trans a.1, b.2.1.trans a.2.1, b.2.2.1.trans a.2.2.1,
        b.2.2.2.1.trans a.2.2.2.1, b.2.2.2.2.trans a.2.2.2.2⟩

theorem execOrder_eos_mono {cb : Callbacks} :
    ∀ {order : List String} {st st2 : PipeState}, execOrder cb order st = .ok st2 →
      pipelineAtEOS st = true → pipelineAtEOS st2 = true := by
  intro order
  induction order with
  | nil =>
      intro st st2 h hp
      simp only [execOrder, Except.ok.injEq] at h
      exact h ▸ hp
  | cons p rest ih =>
      intro st st2 h hp
      rcases execOrder_cons h with ⟨stm, h1, h2⟩
      exact ih h2 (execPad_eos_mono h1 hp)

theorem stepCycle_static (cb : Callbacks) (st : PipeState) :
    (stepCycle cb st).srcPads = st.srcPads ∧ (stepCycle cb st).snkPads = st.snkPads ∧
    (stepCycle cb st).other = st.other ∧ (stepCycle cb st).owner = st.owner ∧
    (stepCycle cb st).graph = st.graph := by
  cases hrc : runCycle cb st with
  | error e => simp [stepCycle, hrc]
  | ok st2 =>
      have hs : stepCycle cb st = st2 := by simp [stepCycle, hrc]
      rw [hs]
      rw [runCycle] at hrc
      cases hk : kahn st.graph with
      | none => rw [hk] at hrc; exact Except.noConfusion hrc
      | some order => rw [hk] at hrc; exact execOrder_static hrc

theorem stepCycle_eos_mono (cb : Callbacks) (t : PipeState)
    (h : pipelineAtEOS t = true) : pipelineAtEOS (stepCycle cb t) = true := by
  cases hrc : runCycle cb t with
  | error e => simpa [stepCycle, hrc] using h
  | ok st2 =>
      have hs : stepCycle cb t = st2 := by simp [stepCycle, hrc]
      rw [hs]
      rw [runCycle] at hrc
      cases hk : kahn t.graph with
      | none => rw [hk] at hrc; exact Except.noConfusion hrc
      | some order => rw [hk] at hrc; exact execOrder_eos_mono hrc h

theorem WFpipe_spec {st : PipeState} (h : WFpipe st = true) :
    (∀ n ∈ allNodes st.graph, n ∈ st.srcPads ∨ n ∈ st.snkPads)
    ∧ (∀ n ∈ st.srcPads, n ∉ st.snkPads)
    ∧ (∀ s ∈ st.snkPads, s ∈ allNodes st.graph →
        ∃ src, lookupVal st.other s = some src ∧ predsOf st.graph s = [src]
          ∧ src ∈ st.srcPads) := by
  simp only [WFpipe, wfCore, Bool.and_eq_true, List.all_eq_true] at h
  obtain ⟨⟨hA, hB⟩, hC⟩ := h
  refine ⟨fun n hn => by simpa using hA n hn, fun n hn => by simpa using hB n hn,
    fun s hs hsg => ?_⟩
  have h2 := hC s hs
  simp only [Bool.or_eq_true, decide_eq_true_eq] at h2
  rcases h2 with h2 | h2
  · exact absurd hsg h2
  · cases hls : lookupVal st.other s with
    | none => rw [linkedSrcOK, hls] at h2; simp at h2
    | some src =>
        rw [linkedSrcOK, hls] at h2
        simp only [Bool.and_eq_true, decide_eq_true_eq] at h2
        exact ⟨src, rfl, h2.1, h2.2⟩

theorem execOrder_ok (cb : Callbacks) (g : Graph) :
    ∀ order done st, st.graph = g → TopoOrder g done order →
      (∀ n ∈ order, n ∈ allNodes g) → WFpipe st = true →
      (∀ q ∈ done, q ∈ st.srcPads → (lookupVal st.outputs q).isSome = true) →
      ∃ st2, execOrder cb order st = .ok st2 := by
  intro order
  induction order with
  | nil => intro done st _ _ _ _ _; exact ⟨st, rfl⟩
  | cons n rest ih =>
      intro done st hg htopo hsub hwf hinv
      cases htopo with
      | cons _ _ _ hnd hpre htail =>
      rcases WFpipe_spec hwf with ⟨hA, hB, hC⟩
      rw [hg] at hA hC
      have hnall : n ∈ allNodes g := hsub n (List.mem_cons_self _ _)
      rcases hA n hnall with hsrc | hsnk
      · have hstep := @execPad_src_eq cb st n hsrc
        have hwf2 : WFpipe (srcStepState cb st n) = true := hwf
        have hinv2 : ∀ q ∈ done ++ [n], q ∈ (srcStepState cb st n).srcPads →
            (lookupVal (srcStepState cb st n).outputs q).isSome = true := by
          intro q hq hqs
          rcases List.mem_append.mp hq with hq | hq
          · have hqn : n ≠ q := fun he => hnd (he ▸ hq)
            show (lookupVal (setVal st.outputs n st.heap.length) q).isSome = true
            rw [lookupVal_setVal_ne _ _ _ _ hqn]
            exact hinv q hq hqs
          · have hq2 : q = n := by simpa using hq
            subst hq2
            show (lookupVal (setVal st.outputs q st.heap.length) q).isSome = true
            rw [lookupVal_setVal_self]
            rfl
        rcases ih (done ++ [n]) (srcStepState cb st n) hg htail
          (fun m hm => hsub m (List.mem_cons_of_mem _ hm)) hwf2 hinv2 with ⟨st2, h2⟩
        exact ⟨st2, by simp [execOrder, hstep, h2]⟩
      · have hnsrc : n ∉ st.srcPads := fun hs => hB n hs hsnk
        rcases hC n hsnk hnall with ⟨src, ho, hpd, hsm⟩
        have hsrcdone : src ∈ done := hpre src (by rw [hpd]; exact List.mem_cons_self _ _)
        have hosome := hinv src hsrcdone hsm
        cases hr : lookupVal st.outputs src with
        | none => rw [hr] at hosome; simp at hosome
        | some r =>
        have hex : ∃ stm, execPad cb st n = .ok stm ∧ stm.outputs = st.outputs := by
          rcases Option.eq_none_or_eq_some (lookupVal st.owner n) with hw | ⟨ename, hw⟩
          · exact ⟨snkStepState st n r,
              by simp [execPad, if_neg hnsrc, if_pos hsnk, ho, hr, hw], rfl⟩
          · cases hm : cb.pullMark ename n
                ((snkStepState st n r).heap.getD r (mkFrame false false []))
            · exact ⟨snkStepState st n r,
                by simp only [execPad, if_neg hnsrc, if_pos hsnk, ho, hr, hw]; rw [hm]; simp, rfl⟩
            · exact ⟨markEos (snkStepState st n r) ename n,
                by simp only [execPad, if_neg hnsrc, if_pos hsnk, ho, hr, hw]; rw [hm]; simp, rfl⟩
        rcases hex with ⟨stm, hstep, houts⟩
        have hst := execPad_static hstep
        have hwf2 : WFpipe stm = true := by
          show wfCore stm.srcPads stm.snkPads stm.other stm.graph = true
          rw [hst.1, hst.2.1, hst.2.2.1, hst.2.2.2.2]
          exact hwf
        have hinv2 : ∀ q ∈ done ++ [n], q ∈ stm.srcPads →
            (lookupVal stm.outputs q).isSome = true := by
          intro q hq hqs
          rw [houts]
          rw [hst.1] at hqs
          rcases List.mem_append.mp hq with hq | hq
          · exact hinv q hq hqs
          · have hq2 : q = n := by simpa using hq
            exact absurd (hq2 ▸ hqs) hnsrc
        rcases ih (done ++ [n]) stm (hst.2.2.2.2.trans hg) htail
          (fun m hm => hsub m (List.mem_cons_of_mem _ hm)) hwf2 hinv2 with ⟨st2, h2⟩
        exact ⟨st2, by simp [execOrder, hstep, h2]⟩

theorem runCycle_eq_step (cb : Callbacks) (st : PipeState) (hwf : WFpipe st = true)
    (hk : (kahn st.graph).isSome = true) : runCycle cb st = .ok (stepCycle cb st) := by
  cases hko : kahn st.graph with
  | none => rw [hko] at hk; simp at hk
  | some order =>
      rcases execOrder_ok cb st.graph order [] st rfl (kahn_topo _ _ hko)
        (kahn_subset _ _ hko) hwf (by simp) with ⟨st2, h2⟩
      have hrc : runCycle cb st = execOrder cb order st := by rw [runCycle, hko]
      rw [hrc, h2, stepCycle, hrc, h2]

theorem WFpipe_stepCycle (cb : Callbacks) (st : PipeState) :
    WFpipe (stepCycle cb st) = WFpipe st := by
  rcases stepCycle_static cb st with ⟨h1, h2, h3, _, h5⟩
  show wfCore _ _ _ _ = wfCore _ _ _ _
  rw [h1, h2, h3, h5]

theorem kahn_stepCycle (cb : Callbacks) (st : PipeState) :
    kahn (stepCycle cb st).graph = kahn st.graph := by
  rw [(stepCycle_static cb st).2.2.2.2]

/-- C10: For every pipeline containing no SinkElement, including the
freshly constructed empty pipeline, run returns immediately with the state
unchanged, invoking no pad callback, because the termination predicate of
the outer loop is vacuously true over an empty collection of sink
elements. -/
theorem c10_no_sinks_returns_immediately (cb : Callbacks) (fuel : Nat) (st : PipeState)
    (h : st.sinks = []) : executeGraphs cb fuel st = some (.ok st) := by
  have hp : pipelineAtEOS st = true := by simp [pipelineAtEOS, h]
  cases fuel <;> simp [executeGraphs, hp]

/-- Witness for c10_no_sinks_returns_immediately on the empty pipeline. -/
theorem c10_no_sinks_returns_immediately_witness :
    executeGraphs cbW 5 emptyPipe = some (.ok emptyPipe) :=
  c10_no_sinks_returns_immediately cbW 5 emptyPipe rfl

/-- C2 counterexample: a pipeline whose merged dependency graph contains a
cycle but which holds no SinkElement makes run return normally, raising no
error at all, because the outer loop predicate is vacuously true and the
topological sorter is never built; so run does not raise for every cyclic
pipeline, contrary to the claim. -/
theorem c2_cycle_counterexample :
    HasCycle cyclePipe.graph ∧ cyclePipe.sinks = []
    ∧ executeGraphs cbW 4 cyclePipe = some (.ok cyclePipe) := by
  refine ⟨⟨"t1:src:O", ?_⟩, rfl, rfl⟩
  exact PathTo.cons _ "t2:sink:I" _ (by decide)
    (PathTo.cons _ "t2:src:O" _ (by decide)
      (PathTo.cons _ "t1:sink:I" _ (by decide)
        (PathTo.single _ _ (by decide))))

/-- C2 amended: for every pipeline that holds at least one SinkElement (so
the outer loop runs at all, its EOS tables being freshly initialized to
false) and whose merged dependency graph contains a cycle, run raises
CycleError deterministically at scheduling time of the first frame cycle,
before any pad callback has been invoked, and the propagated state is the
entry state itself: every stored input and output frame is unchanged. -/
theorem c2_cycle_scheduling_error (cb : Callbacks) (fuel : Nat) (st : PipeState)
    (hcyc : HasCycle st.graph) (hne : st.sinks ≠ [])
    (hinit : ∀ e ∈ st.sinks, elemAtEOS e = false) :
    executeGraphs cb (fuel + 1) st = some (.error (.cycleError, st)) := by
  have hk : kahn st.graph = none := cycle_kahn_none hcyc
  have hp : pipelineAtEOS st = false := by
    cases hs : st.sinks with
    | nil => exact absurd hs hne
    | cons e rest =>
        have he := hinit e (by rw [hs]; exact List.mem_cons_self _ _)
        simp [pipelineAtEOS, hs, he]
  simp [executeGraphs, hp, runCycle, hk]

/-- Witness for c2_cycle_scheduling_error: the cyclic pipeline with a sink
element raises CycleError with the state unchanged. -/
theorem c2_cycle_scheduling_error_witness :
    executeGraphs cbW 4 cycleSinkPipe = some (.error (.cycleError, cycleSinkPipe)) := by
  refine c2_cycle_scheduling_error cbW 3 cycleSinkPipe ⟨"t1:src:O", ?_⟩
    (by simp [cycleSinkPipe]) (by decide)
  exact PathTo.cons _ "t2:sink:I" _ (by decide)
    (PathTo.cons _ "t2:src:O" _ (by decide)
      (PathTo.cons _ "t1:sink:I" _ (by decide)
        (PathTo.single _ _ (by decide))))

theorem executeGraphs_characterization (cb : Callbacks) :
    ∀ fuel st s2, WFpipe st = true → (kahn st.graph).isSome = true →
      (executeGraphs cb fuel st = some (.ok s2) ↔
        ∃ n, n ≤ fuel ∧ (∀ m, m < n → pipelineAtEOS ((stepCycle cb)^[m] st) = false)
          ∧ pipelineAtEOS ((stepCycle cb)^[n] st) = true
          ∧ s2 = (stepCycle cb)^[n] st) := by
  intro fuel
  induction fuel with
  | zero =>
      intro st s2 hwf hk
      by_cases hp : pipelineAtEOS st = true
      · constructor
        · intro h
          simp only [executeGraphs, if_pos hp, Option.some.injEq, Except.ok.injEq] at h
          exact ⟨0, Nat.le_refl 0, fun m hm => absurd hm (Nat.not_lt_zero m),
            by simpa using hp, by simp [h]⟩
        · rintro ⟨n, hn, _, _, hs⟩
          have hn0 : n = 0 := Nat.le_zero.mp hn
          subst hn0
          simp only [Function.iterate_zero_apply] at hs
          simp [executeGraphs, hp, hs]
      · constructor
        · intro h
          simp [executeGraphs, hp] at h
        · rintro ⟨n, hn, _, hpred, _⟩
          have hn0 : n = 0 := Nat.le_zero.mp hn
          subst hn0
          simp only [Function.iterate_zero_apply] at hpred
          exact absurd hpred hp
  | succ fuel ih =>
      intro st s2 hwf hk
      by_cases hp : pipelineAtEOS st = true
      · constructor
        · intro h
          simp only [executeGraphs, if_pos hp, Option.some.injEq, Except.ok.injEq] at h
          exact ⟨0, Nat.zero_le _, fun m hm => absurd hm (Nat.not_lt_zero m),
            by simpa using hp, by simp [h]⟩
        · rintro ⟨n, hn, hlt, _, hs⟩
          have hn0 : n = 0 := by
            by_contra hne
            have := hlt 0 (Nat.pos_of_ne_zero hne)
            simp only [Function.iterate_zero_apply] at this
            exact absurd hp (by simp [this])
          subst hn0
          simp only [Function.iterate_zero_apply] at hs
          simp [executeGraphs, hp, hs]
      · have hpf : pipelineAtEOS st = false := by
          cases hb : pipelineAtEOS st
          · rfl
          · exact absurd hb hp
        have hrc := runCycle_eq_step cb st hwf hk
        have heg : executeGraphs cb (fuel + 1) st = executeGraphs cb fuel (stepCycle cb st) := by
          simp [executeGraphs, hpf, hrc]
        have hwf2 : WFpipe (stepCycle cb st) = true := (WFpipe_stepCycle cb st).symm ▸ hwf
        have hk2 : (kahn (stepCycle cb st).graph).isSome = true := by
          rw [kahn_stepCycle]; exact hk
        rw [heg, ih (stepCycle cb st) s2 hwf2 hk2]
        constructor
        · rintro ⟨n, hn, hlt, hpred, hs⟩
          refine ⟨n + 1, Nat.succ_le_succ hn, fun m hm => ?_, ?_, ?_⟩
          · cases m with
            | zero => simpa using hpf
            | succ m =>
                rw [Function.iterate_succ_apply]
                exact hlt m (Nat.lt_of_succ_lt_succ hm)
          · rw [Function.iterate_succ_apply]; exact hpred
          · rw [Function.iterate_succ_apply]; exact hs
        · rintro ⟨n, hn, hlt, hpred, hs⟩
          cases n with
          | zero =>
              simp only [Function.iterate_zero_apply] at hpred
              exact absurd hpred hp
          | succ n =>
              refine ⟨n, Nat.le_of_succ_le_succ hn, fun m hm => ?_, ?_, ?_⟩
              · have := hlt (m + 1) (Nat.succ_lt_succ hm)
                rwa [Function.iterate_succ_apply] at this
              · rw [← Function.iterate_succ_apply]; exact hpred
              · rw [← Function.iterate_succ_apply]; exact hs

/-- C1: Pipeline.run terminates exactly when the global EOS predicate
becomes true at a frame boundary.  On a well formed acyclic pipeline the
outer loop of Pipeline.__execute_graphs returns the state reached after n
frame cycles exactly when n is the first frame boundary at which every
SinkElement has some sink pad flagged EOS (within the given fuel); the
predicate is monotone across frame cycles, because EOS flags are set by
mark_eos and never cleared; and a freshly constructed SinkElement starts
with every flag false, so it is not at EOS. -/
theorem c1_run_eos_termination (cb : Callbacks) (fuel : Nat) (st s2 : PipeState)
    (hwf : WFpipe st = true) (hk : (kahn st.graph).isSome = true) :
    (executeGraphs cb fuel st = some (.ok s2) ↔
      ∃ n, n ≤ fuel ∧ (∀ m, m < n → pipelineAtEOS ((stepCycle cb)^[m] st) = false)
        ∧ pipelineAtEOS ((stepCycle cb)^[n] st) = true
        ∧ s2 = (stepCycle cb)^[n] st)
    ∧ (∀ t, pipelineAtEOS t = true → pipelineAtEOS (stepCycle cb t) = true)
    ∧ (∀ ename padNames, elemAtEOS (mkSinkElem ename padNames) = false) := by
  refine ⟨executeGraphs_characterization cb fuel st s2 hwf hk, stepCycle_eos_mono cb, ?_⟩
  intro ename padNames
  induction padNames with
  | nil => rfl
  | cons q rest ih => simp [elemAtEOS, mkSinkElem]

/-- Witness for c1_run_eos_termination: the source to sink pipeline w1 with
an immediately EOS producing source returns after exactly one frame
cycle. -/
theorem c1_run_eos_termination_witness :
    WFpipe w1 = true ∧ executeGraphs cbM 3 w1 = some (.ok ((stepCycle cbM)^[1] w1)) := by
  refine ⟨rfl, ?_⟩
  refine ((c1_run_eos_termination cbM 3 w1 ((stepCycle cbM)^[1] w1) rfl rfl).1).mpr
    ⟨1, by omega, ?_, ?_, rfl⟩
  · intro m hm
    have hm0 : m = 0 := Nat.lt_one_iff.mp hm
    subst hm0
    rfl
  · rfl

theorem fanInv_step (cb : Callbacks) (g : Graph) (base : Nat) (src snk1 snk2 : String) :
    ∀ order done st st2, TopoOrder g done order → execOrder cb order st = .ok st2 →
      fanCtx g src snk1 snk2 st → base ≤ st.heap.length →
      (snk1 ∈ done → src ∈ done) → (snk2 ∈ done → src ∈ done) →
      fanInv base src snk1 snk2 done st →
      fanInv base src snk1 snk2 (done ++ order) st2 := by
  intro order
  induction order with
  | nil =>
      intro done st st2 _ hexec _ _ _ _ hI
      simp only [execOrder, Except.ok.injEq] at hexec
      subst hexec
      simpa using hI
  | cons n rest ih =>
      intro done st st2 htopo hexec hctx hbase hJ1 hJ2 hI
      cases htopo with
      | cons _ _ _ hnd hpre htail =>
      rcases execOrder_cons hexec with ⟨stm, hstep, hrest⟩
      obtain ⟨hsp, hk1, hn1, ho1, hp1, hk2, hn2, ho2, hp2⟩ := hctx
      have happ : done ++ n :: rest = (done ++ [n]) ++ rest := by simp
      rw [happ]
      rcases execPad_ok_shape hstep with ⟨hnsrc, hstm⟩ |
        ⟨hnsrc, hnsnk, src0, r0, ho0, hr0, hshape⟩
      · subst hstm
        have hne1 : snk1 ≠ n := fun he => hn1 (he ▸ hnsrc)
        have hne2 : snk2 ≠ n := fun he => hn2 (he ▸ hnsrc)
        have hJ1b : snk1 ∈ done ++ [n] → src ∈ done ++ [n] := by
          intro hmem
          rcases List.mem_append.mp hmem with hmem | hmem
          · exact List.mem_append_left _ (hJ1 hmem)
          · exact absurd (by simpa using hmem) hne1
        have hJ2b : snk2 ∈ done ++ [n] → src ∈ done ++ [n] := by
          intro hmem
          rcases List.mem_append.mp hmem with hmem | hmem
          · exact List.mem_append_left _ (hJ2 hmem)
          · exact absurd (by simpa using hmem) hne2
        have hIb : fanInv base src snk1 snk2 (done ++ [n]) (srcStepState cb st n) := by
          intro hmem
          rcases List.mem_append.mp hmem with hmem | hmem
          · rcases hI hmem with ⟨r, hro, hbr, hrl, hi1, hi2⟩
            have hsrcne : n ≠ src := fun he => hnd (he ▸ hmem)
            refine ⟨r, ?_, hbr, ?_, ?_, ?_⟩
            · show lookupVal (setVal st.outputs n st.heap.length) src = some r
              rw [lookupVal_setVal_ne _ _ _ _ hsrcne]
              exact hro
            · show r < (st.heap ++ [_]).length
              simp only [List.length_append, List.length_cons, List.length_nil]
              omega
            · intro hs1
              have hd : snk1 ∈ done := by
                rcases List.mem_append.mp hs1 with h | h
                · exact h
                · exact absurd (by simpa using h) hne1
              exact hi1 hd
            · intro hs2
              have hd : snk2 ∈ done := by
                rcases List.mem_append.mp hs2 with h | h
                · exact h
                · exact absurd (by simpa using h) hne2
              exact hi2 hd
          · have hsrcn : src = n := by simpa using hmem
            refine ⟨st.heap.length, ?_, hbase, ?_, ?_, ?_⟩
            · show lookupVal (setVal st.outputs n st.heap.length) src = some st.heap.length
              rw [hsrcn]
              exact lookupVal_setVal_self _ _ _
            · show st.heap.length < (st.heap ++ [_]).length
              simp
            · intro hs1
              have hd : snk1 ∈ done := by
                rcases List.mem_append.mp hs1 with h | h
                · exact h
                · exact absurd (by simpa using h) hne1
              exact absurd (hsrcn ▸ hJ1 hd) hnd
            · intro hs2
              have hd : snk2 ∈ done := by
                rcases List.mem_append.mp hs2 with h | h
                · exact h
                · exact absurd (by simpa using h) hne2
              exact absurd (hsrcn ▸ hJ2 hd) hnd
        exact ih (done ++ [n]) (srcStepState cb st n) st2 htail hrest
          ⟨hsp, hk1, hn1, ho1, hp1, hk2, hn2, ho2, hp2⟩
          (by show base ≤ (st.heap ++ [_]).length; simp only [List.length_append]; omega)
          hJ1b hJ2b hIb
      · have houts : stm.outputs = st.outputs := by
          rcases hshape with h | ⟨e, _, h⟩ <;> subst h <;> rfl
        have hinp : stm.inputs = setVal st.inputs n r0 := by
          rcases hshape with h | ⟨e, _, h⟩ <;> subst h <;> rfl
        have hheap : stm.heap.length = st.heap.length := by
          rcases hshape with h | ⟨e, _, h⟩ <;> subst h <;>
            simp [snkStepState, markEos, List.length_set]
        have hstatic := execPad_static hstep
        have hctx2 : fanCtx g src snk1 snk2 stm := by
          refine ⟨?_, ?_, ?_, ?_, hp1, ?_, ?_, ?_, hp2⟩
          · rw [hstatic.1]; exact hsp
          · rw [hstatic.2.1]; exact hk1
          · rw [hstatic.1]; exact hn1
          · rw [hstatic.2.2.1]; exact ho1
          · rw [hstatic.2.1]; exact hk2
          · rw [hstatic.1]; exact hn2
          · rw [hstatic.2.2.1]; exact ho2
        have hJ1b : snk1 ∈ done ++ [n] → src ∈ done ++ [n] := by
          intro hmem
          rcases List.mem_append.mp hmem with hmem | hmem
          · exact List.mem_append_left _ (hJ1 hmem)
          · have he : snk1 = n := by simpa using hmem
            exact List.mem_append_left _ (hpre src (he ▸ hp1))
        have hJ2b : snk2 ∈ done ++ [n] → src ∈ done ++ [n] := by
          intro hmem
          rcases List.mem_append.mp hmem with hmem | hmem
          · exact List.mem_append_left _ (hJ2 hmem)
          · have he : snk2 = n := by simpa using hmem
            exact List.mem_append_left _ (hpre src (he ▸ hp2))
        have hIb : fanInv base src snk1 snk2 (done ++ [n]) stm := by
          intro hmem
          have hsrcne : src ≠ n := fun he => hnsrc (he ▸ hsp)
          have hsd : src ∈ done := by
            rcases List.mem_append.mp hmem with h | h
            · exact h
            · exact absurd (by simpa using h) hsrcne
          rcases hI hsd with ⟨r, hro, hbr, hrl, hi1, hi2⟩
          refine ⟨r, ?_, hbr, ?_, ?_, ?_⟩
          · rw [houts]; exact hro
          · rw [hheap]; exact hrl
          · intro hs1
            rw [hinp]
            rcases List.mem_append.mp hs1 with hd | hd
            · have hne : n ≠ snk1 := fun he => hnd (he ▸ hd)
              rw [lookupVal_setVal_ne _ _ _ _ hne]
              exact hi1 hd
            · have he : snk1 = n := by simpa using hd
              rw [← he, lookupVal_setVal_self]
              have hsrc0 : src0 = src := by
                have := (he ▸ ho1 : lookupVal st.other n = some src)
                exact Option.some.inj (ho0.symm.trans this)
              rw [hsrc0] at hr0
              rw [hro] at hr0
              exact hr0.symm
          · intro hs2
            rw [hinp]
            rcases List.mem_append.mp hs2 with hd | hd
            · have hne : n ≠ snk2 := fun he => hnd (he ▸ hd)
              rw [lookupVal_setVal_ne _ _ _ _ hne]
              exact hi2 hd
            · have he : snk2 = n := by simpa using hd
              rw [← he, lookupVal_setVal_self]
              have hsrc0 : src0 = src := by
                have := (he ▸ ho2 : lookupVal st.other n = some src)
                exact Option.some.inj (ho0.symm.trans this)
              rw [hsrc0] at hr0
              rw [hro] at hr0
              exact hr0.symm
        exact ih (done ++ [n]) stm st2 htail hrest hctx2
          (by rw [hheap]; exact hbase) hJ1b hJ2b hIb

/-- C5: Fan out coherence.  For a source pad linked to two sink pads,
within one frame cycle executed in any order the scheduler can produce,
both sink pads end the cycle storing as input the very reference the source
pad stored as output, and that reference points at a frame freshly
allocated during this cycle: all fan out consumers observe the identical
frame instance. -/
theorem c5_fanout_coherence (cb : Callbacks) (st st2 : PipeState) (order : List String)
    (src snk1 snk2 : String)
    (htopo : TopoOrder st.graph [] order)
    (h1 : snk1 ∈ order) (h2 : snk2 ∈ order)
    (hctx : fanCtx st.graph src snk1 snk2 st)
    (hrun : execOrder cb order st = .ok st2) :
    ∃ r, lookupVal st2.outputs src = some r ∧ st.heap.length ≤ r ∧ r < st2.heap.length ∧
      lookupVal st2.inputs snk1 = some r ∧ lookupVal st2.inputs snk2 = some r := by
  have hsrc_in : src ∈ order := by
    rcases topo_before htopo snk1 h1 src hctx.2.2.2.2.1 with h | h
    · simp at h
    · exact h.1
  have hfin := fanInv_step cb st.graph st.heap.length src snk1 snk2 order [] st st2 htopo
    hrun hctx (Nat.le_refl _) (fun h => absurd h (List.not_mem_nil _))
    (fun h => absurd h (List.not_mem_nil _))
    (fun h => absurd h (List.not_mem_nil _))
  rcases hfin (by simpa using hsrc_in) with ⟨r, hro, hbr, hrl, hi1, hi2⟩
  exact ⟨r, hro, hbr, hrl, hi1 (by simpa using h1), hi2 (by simpa using h2)⟩

/-- Witness for c5_fanout_coherence on the concrete fan out pipeline st5:
after one frame cycle both sink elements store reference 0, the output of
the source pad. -/
theorem c5_fanout_coherence_witness :
    lookupVal c5final.inputs "k1:sink:I" = lookupVal c5final.outputs "s:src:O"
    ∧ lookupVal c5final.inputs "k2:sink:I" = lookupVal c5final.outputs "s:src:O"
    ∧ (lookupVal c5final.outputs "s:src:O").isSome = true := by
  have hrun : execOrder cbW order5 st5 = .ok c5final := rfl
  have htopo : TopoOrder st5.graph [] order5 := kahn_topo st5.graph order5 rfl
  rcases c5_fanout_coherence cbW st5 c5final order5 "s:src:O" "k1:sink:I" "k2:sink:I"
    htopo (by decide) (by decide)
    ⟨by decide, by decide, by decide, rfl, by decide, by decide, by decide, rfl, by decide⟩
    hrun with ⟨r, hro, _, _, hi1, hi2⟩
  rw [hro, hi1, hi2]
  simp

end Sgn
